import Mathlib

/-
Verification development for the Locks Analyser (src/app.py).

The Python source is shallowly embedded below: pandas DataFrames become
`Table` (a column count plus a list of rows, each row a list of cell
strings), Python `int(...)` on strings becomes `pyInt`, the format
`f"{n:06d}"` becomes `formatInt06`, and every `(result, error)` returning
function becomes a Lean function returning the same pair of options.
-/

set_option autoImplicit false

namespace Locks

/-! ## Characters and Python-style integer parsing

`pyInt` models Python `int(s)` for `str` arguments: surrounding whitespace
is stripped, an optional single `+`/`-` sign is accepted, and the digit
part is a nonempty ASCII digit sequence in which single underscores may
appear between digits.  (CPython also accepts some Unicode digits and
whitespace; those inputs are outside this model.) -/

/-- Whitespace test used when stripping: space and the ASCII control
whitespace range 9..13 (tab, newline, vertical tab, form feed, CR). -/
def isWsC (c : Char) : Bool := c.toNat = 32 || (9 ≤ c.toNat && c.toNat ≤ 13)

/-- ASCII digit test. -/
def isDigitC (c : Char) : Bool := 48 ≤ c.toNat && c.toNat ≤ 57

/-- Numeric value of an ASCII digit character. -/
def digitVal (c : Char) : Nat := c.toNat - 48

/-- Strip leading and trailing whitespace from a character list (the
treatment `int(s)` applies to its argument, and also `str.strip()`). -/
def stripWsBoth (cs : List Char) : List Char :=
  ((cs.dropWhile isWsC).reverse.dropWhile isWsC).reverse

/-- After the first digit of a Python integer literal: digits, with single
underscores allowed only between digits (an underscore must be followed
by a digit and never ends the literal). -/
def pyDigitsRest : List Char → Bool
  | [] => true
  | [c] => isDigitC c
  | c :: c2 :: rest =>
    if c = '_' then isDigitC c2 && pyDigitsRest (c2 :: rest)
    else isDigitC c && pyDigitsRest (c2 :: rest)

/-- A valid Python digit part: starts with a digit, then `pyDigitsRest`. -/
def pyDigitsOk : List Char → Bool
  | [] => false
  | c :: rest => isDigitC c && pyDigitsRest rest

/-- Accumulator-style decimal value of a digit list. -/
def pyValAux : Nat → List Char → Nat
  | a, [] => a
  | a, c :: rest => pyValAux (10 * a + digitVal c) rest

/-- Decimal value of a digit list (underscores removed by the caller). -/
def pyVal (cs : List Char) : Nat := pyValAux 0 cs

/-- Value of a digit part, ignoring underscore separators. -/
def pyDigitsVal (cs : List Char) : Nat := pyVal (cs.filter (fun c => c ≠ '_'))

/-- The sign-and-digits part of Python `int(s)`, after stripping. -/
def pyIntCore : List Char → Option Int
  | [] => none
  | c :: rest =>
    if c = '+' then
      if pyDigitsOk rest then some ((pyDigitsVal rest : Nat) : Int) else none
    else if c = '-' then
      if pyDigitsOk rest then some (-((pyDigitsVal rest : Nat) : Int)) else none
    else
      if pyDigitsOk (c :: rest) then some ((pyDigitsVal (c :: rest) : Nat) : Int)
      else none

/-- Model of Python `int(s)` for string arguments. -/
def pyInt (s : String) : Option Int :=
  pyIntCore (stripWsBoth s.toList)

/-! ## Decimal rendering, `f"{n:06d}"` -/

/-- The character for a decimal digit `d < 10`. -/
def digitChar : Nat → Char
  | 0 => '0' | 1 => '1' | 2 => '2' | 3 => '3' | 4 => '4'
  | 5 => '5' | 6 => '6' | 7 => '7' | 8 => '8' | _ => '9'

/-- Decimal digits of `n`, most significant first; `[]` for `n = 0`.
`fuel` bounds the recursion (`n + 1` suffices). -/
def natDigitsAux : Nat → Nat → List Char
  | _, 0 => []
  | 0, _ => []
  | fuel + 1, n + 1 =>
    natDigitsAux fuel ((n + 1) / 10) ++ [digitChar ((n + 1) % 10)]

/-- Decimal digits of `n`, with `0` rendered as `"0"`. -/
def natDigits (n : Nat) : List Char :=
  if n = 0 then ['0'] else natDigitsAux (n + 1) n

/-- Left-pad with `'0'` to width `w`. -/
def padZeros (cs : List Char) (w : Nat) : List Char :=
  List.replicate (w - cs.length) '0' ++ cs

/-- Model of Python `f"{n:06d}"`: total width 6, the sign of a negative
number counts toward the width. -/
def formatInt06 (n : Int) : String :=
  if n < 0 then String.mk ('-' :: padZeros (natDigits n.natAbs) 5)
  else String.mk (padZeros (natDigits n.toNat) 6)

/-- Embedding of `normalize_row_number` (src/app.py:33): `int(row_num)`
re-rendered as `f"{num:06d}"`, `None` when parsing raises. -/
def normalize_row_number (s : String) : Option String :=
  (pyInt s).map formatInt06

/-! ## The data model

A pandas `DataFrame` read with `header=None, dtype=str` becomes a `Table`:
`ncols` models `df.shape[1]` and each row is the list of its cell strings
(`NaN` cells read back as the string `"nan"` through `str(...)`).  In a
real frame every row has length `ncols`; that rectangularity is taken as
an explicit hypothesis where a claim needs it. -/

/-- One row of the table: the list of its cell strings. -/
abbrev Row := List String

/-- The loaded table: column count plus rows. -/
structure Table where
  ncols : Nat
  rows : List Row
deriving DecidableEq, Repr

/-- Cell access `row[i]`, total with `""` out of bounds (the source always
guards accesses with `col_idx < len(row)`). -/
def cellAt (r : Row) (i : Nat) : String := r.getD i ""

/-- The identity column `df[0]` as a list of strings. -/
def col0 (t : Table) : List String := t.rows.map (fun r => cellAt r 0)

/-! ## Validator (`validate_data`, src/app.py:42) -/

/-- The distinct error messages `validate_data` can append, one
constructor per `errors.append` site. -/
inductive VError where
  /-- "Недостаточно колонок в файле" (fewer than 7 columns). -/
  | structural
  /-- "Найдены дублирующиеся номера строк", with the duplicated ids. -/
  | duplicates (dups : List String)
  /-- "значение не является двузначным числом" at a row and position. -/
  | slotNotTwoDigit (id : String) (pos : Nat) (val : String)
  /-- "значение не является числом" at a row and position. -/
  | slotNotNumber (id : String) (pos : Nat) (val : String)
  /-- "отсутствует значение в позиции" at a row and position. -/
  | missingSlot (id : String) (pos : Nat)
deriving DecidableEq, Repr

/-- First occurrences of each element, in encounter order (the key order
of `collections.Counter`). -/
def firstOccur (l : List String) : List String :=
  l.foldl (fun acc x => if x ∈ acc then acc else acc ++ [x]) []

/-- The ids occurring more than once, in first-occurrence order
(src/app.py:55). -/
def duplicatesOf (l : List String) : List String :=
  (firstOccur l).filter (fun x => 1 < l.count x)

/-- The duplicate check of `validate_data` (src/app.py:54-57): one error
naming all duplicated ids, or nothing. -/
def dupErrors (t : Table) : List VError :=
  let d := duplicatesOf (col0 t)
  if d = [] then [] else [VError.duplicates d]

/-- Errors for one cell of the slot-value check (src/app.py:64-75):
strip, skip blank and `"nan"`, else require an integer in `[10,99]`. -/
def slotCellErrors (id : String) (pos : Nat) (cell : String) : List VError :=
  let v := stripWsBoth cell.toList
  if v = [] ∨ v = "nan".toList then []
  else
    match pyInt (String.mk v) with
    | some n =>
      if n < 10 ∨ 99 < n then [VError.slotNotTwoDigit id pos (String.mk v)]
      else []
    | none => [VError.slotNotNumber id pos (String.mk v)]

/-- Slot-value errors of one row (src/app.py:60-79): positions 1..6, with
a missing-value error when the row is shorter than the position. -/
def rowErrors (r : Row) : List VError :=
  (List.range' 1 6).flatMap (fun pos =>
    if pos < r.length then slotCellErrors (cellAt r 0) pos (cellAt r pos)
    else [VError.missingSlot (cellAt r 0) pos])

/-- All slot-value errors of the table, in row order. -/
def slotValueErrors (t : Table) : List VError :=
  t.rows.flatMap rowErrors

/-- Embedding of `validate_data` (src/app.py:42): a single structural
error short-circuits; otherwise the duplicate error (if any) followed by
every slot-value error. -/
def validate_data (t : Table) : List VError :=
  if t.ncols < 7 then [VError.structural]
  else dupErrors t ++ slotValueErrors t

/-! ## Range integrity and lookup -/

/-- The integers of Python `range(a, b + 1)`. -/
def intRange (a b : Int) : List Int :=
  (List.range (b + 1 - a).toNat).map (fun k : Nat => a + (k : Int))

/-- Embedding of `check_range_integrity` (src/app.py:84): every expected
6-zero-padded identity in `[a,b]` that is not among the stored identity
strings, in ascending order. -/
def check_range_integrity (t : Table) (a b : Int) : List String :=
  (intRange a b).filterMap (fun i =>
    let s := formatInt06 i
    if s ∈ col0 t then none else some s)

/-- The error messages of `get_single_row`. -/
inductive LookupError where
  /-- "Некорректный номер строки". -/
  | invalidIdentifier
  /-- "Строка ... не найдена", with the normalized id. -/
  | notFound (id : String)
deriving DecidableEq, Repr

/-- Embedding of `get_single_row` (src/app.py:97): normalize, then return
the first row whose identity cell equals the normalized id. -/
def get_single_row (t : Table) (rowNumber : String) :
    Option Row × Option LookupError :=
  match normalize_row_number rowNumber with
  | none => (none, some LookupError.invalidIdentifier)
  | some nN =>
    match t.rows.filter (fun r => cellAt r 0 = nN) with
    | [] => (none, some (LookupError.notFound nN))
    | r :: _ => (some r, none)

/-! ## Range analysis (`analyze_range`, src/app.py:137) -/

/-- Embedding of `calculate_digit_difference` (src/app.py:110): defined
(as the absolute difference of the two digits) exactly when the decimal
rendering of the integer has two characters, i.e. on `[10,99]`. -/
def calculate_digit_difference (v : Int) : Option Nat :=
  if 10 ≤ v ∧ v ≤ 99 then some (Nat.dist (v.toNat / 10) (v.toNat % 10))
  else none

/-- Embedding of `is_mirror_number` (src/app.py:124): a two-digit integer
whose two digits are equal. -/
def is_mirror_number (v : Int) : Bool :=
  decide (10 ≤ v) && decide (v ≤ 99) && decide (v.toNat / 10 = v.toNat % 10)

/-- `special_numbers` (src/app.py:173). -/
def special_numbers : List Int := [11, 22, 33, 44, 55, 66, 77]

/-- The `results` dictionary built by `analyze_range` (src/app.py:164).
`difference_groups` is the dict `diff -> list of values`, as an
association list in key insertion order with values in append order. -/
structure AnalysisResults where
  total_count : Nat
  doubled_count : Nat
  quadrupled_count : Nat
  difference_groups : List (Nat × List Int)
  mirror_numbers : List Int
  special_numbers : List Int
deriving DecidableEq, Repr

/-- The empty `results` dictionary. -/
def initResults : AnalysisResults := ⟨0, 0, 0, [], [], []⟩

/-- Append `v` to the group keyed `d`, creating the key at the end when
absent (Python dict insertion order). -/
def addToGroup : List (Nat × List Int) → Nat → Int → List (Nat × List Int)
  | [], d, v => [(d, [v])]
  | (k, l) :: rest, d, v =>
    if k = d then (k, l ++ [v]) :: rest else (k, l) :: addToGroup rest d v

/-- The body of the scan loop (src/app.py:179-199) for one successfully
parsed integer `v`. -/
def processValue (skat : Bool) (res : AnalysisResults) (v : Int) :
    AnalysisResults :=
  if 10 ≤ v ∧ v ≤ 99 then
    let res1 := { res with total_count := res.total_count + 1 }
    let res2 :=
      if skat ∧ v ∈ special_numbers then
        { res1 with quadrupled_count := res1.quadrupled_count + 4,
                    special_numbers := res1.special_numbers ++ [v] }
      else { res1 with doubled_count := res1.doubled_count + 2 }
    let res3 :=
      match calculate_digit_difference v with
      | some d =>
        { res2 with difference_groups := addToGroup res2.difference_groups d v }
      | none => res2
    if is_mirror_number v then
      { res3 with mirror_numbers := res3.mirror_numbers ++ [v] }
    else res3
  else res

/-- `cols_to_analyze` (src/app.py:162): 5 in СКАТ mode, 6 otherwise. -/
def cols_to_analyze (skat : Bool) : Nat := if skat then 5 else 6

/-- The attempted parse of one slot: `int(row[idx])` behind the guard
`col_idx < len(row)` (src/app.py:177-179). -/
def slotParse (r : Row) (idx : Nat) : Option Int :=
  if idx < r.length then pyInt (cellAt r idx) else none

/-- The integers successfully parsed from the scanned slots of one row,
in slot order 1..`cols_to_analyze` (a failed parse is skipped by the
`except: continue`). -/
def parsedRow (skat : Bool) (r : Row) : List Int :=
  (List.range' 1 (cols_to_analyze skat)).filterMap (slotParse r)

/-- Scanning one row: fold the loop body over its parsed slot values. -/
def scanRow (skat : Bool) (res : AnalysisResults) (r : Row) : AnalysisResults :=
  (parsedRow skat r).foldl (processValue skat) res

/-- The whole scan loop over the filtered rows (src/app.py:175-201). -/
def scanRows (skat : Bool) (rows : List Row) : AnalysisResults :=
  rows.foldl (scanRow skat) initResults

/-- The errors `analyze_range` can return, one constructor per message. -/
inductive AnalyzeError where
  /-- "Некорректный формат диапазона". -/
  | invalidFormat
  /-- "Начало диапазона не может быть больше конца". -/
  | inverted
  /-- "В диапазоне отсутствуют строки", with the missing ids. -/
  | incomplete (missing : List String)
  /-- "Нет данных в указанном диапазоне". -/
  | empty
deriving DecidableEq, Repr

/-- Lexicographic (code-point) string comparison, Python `<=` on `str`. -/
def strLeB : List Char → List Char → Bool
  | [], _ => true
  | _ :: _, [] => false
  | a :: as, b :: bs =>
    if a.toNat < b.toNat then true
    else if b.toNat < a.toNat then false
    else strLeB as bs

/-- The range filter (src/app.py:154-156): rows whose identity cell lies
lexicographically between the normalized endpoints. -/
def rangeFilter (t : Table) (sN eN : String) : List Row :=
  t.rows.filter (fun r =>
    strLeB sN.toList (cellAt r 0).toList && strLeB (cellAt r 0).toList eN.toList)

/-- The tail of `analyze_range` after the integrity gate (src/app.py:
154-203): filter, empty-range check, scan. -/
def afterIntegrity (t : Table) (sN eN : String) (skat : Bool) :
    Option AnalysisResults × Option AnalyzeError :=
  match rangeFilter t sN eN with
  | [] => (none, some AnalyzeError.empty)
  | r :: rs => (some (scanRows skat (r :: rs)), none)

/-- Embedding of `analyze_range` (src/app.py:137): normalize endpoints,
reject inverted ranges, require the inclusive identity range complete,
then scan the filtered rows. -/
def analyze_range (t : Table) (sR eR : String) (skat : Bool) :
    Option AnalysisResults × Option AnalyzeError :=
  match normalize_row_number sR, normalize_row_number eR with
  | some sN, some eN =>
    let sI := (pyInt sN).getD 0
    let eI := (pyInt eN).getD 0
    if eI < sI then (none, some AnalyzeError.inverted)
    else
      let missing := check_range_integrity t sI eI
      if missing = [] then afterIntegrity t sN eN skat
      else (none, some (AnalyzeError.incomplete missing))
  | _, _ => (none, some AnalyzeError.invalidFormat)

/-! ## Result formatting (`format_results_for_copy`, src/app.py:206)

The per-number display data of the report is the `"Разность {diff}:
{dict(count)}"` block: one line per digit-difference key in ascending
order, each line showing `collections.Counter` of that group's value
list — number keys in first-occurrence order with raw occurrence counts.
The model below renders that block structurally. -/

/-- Bump the count of `v` in a counter association list, appending a new
key at the end when absent (`collections.Counter` behaviour). -/
def bumpKey : List (Int × Nat) → Int → List (Int × Nat)
  | [], v => [(v, 1)]
  | (k, c) :: rest, v =>
    if k = v then (k, c + 1) :: rest else (k, c) :: bumpKey rest v

/-- `collections.Counter(l)` as an association list. -/
def counterList (l : List Int) : List (Int × Nat) :=
  l.foldl bumpKey []

/-- Count lookup in a counter association list, 0 when absent. -/
def lookupCnt : List (Int × Nat) → Int → Nat
  | [], _ => 0
  | (k, c) :: rest, v => if k = v then c else lookupCnt rest v

/-- Group lookup in `difference_groups`, `[]` when absent. -/
def lookupGroup : List (Nat × List Int) → Nat → List Int
  | [], _ => []
  | (k, l) :: rest, d => if k = d then l else lookupGroup rest d

/-- Insert into a sorted list of naturals. -/
def insertNat (x : Nat) : List Nat → List Nat
  | [] => [x]
  | y :: ys => if x ≤ y then x :: y :: ys else y :: insertNat x ys

/-- Ascending sort, Python `sorted` on the group keys. -/
def sortNat : List Nat → List Nat
  | [] => []
  | x :: xs => insertNat x (sortNat xs)

/-- The digit-difference block of `format_results_for_copy`
(src/app.py:230-233): for each key in ascending order, one emitted line
carrying that group's counter. -/
def format_difference_lines (res : AnalysisResults) :
    List (Nat × List (Int × Nat)) :=
  (sortNat (res.difference_groups.map Prod.fst)).map
    (fun d => (d, counterList (lookupGroup res.difference_groups d)))

/-- The raw occurrence count of `v` in an analysis result: how many times
`v` was appended to its digit-difference group. -/
def occCount (res : AnalysisResults) (v : Int) : Nat :=
  (res.difference_groups.flatMap Prod.snd).count v

/-- The count displayed for `v` by the digit-difference block: the
counter entry of `v` in the line of its digit-difference key. -/
def formatDisplayCount (res : AnalysisResults) (v : Int) : Nat :=
  match calculate_digit_difference v with
  | some d => lookupCnt (counterList (lookupGroup res.difference_groups d)) v
  | none => 0

/-- The in-range test of the scan loop, as a Boolean. -/
def twoDigitB (v : Int) : Bool := decide (10 ≤ v) && decide (v ≤ 99)

/-- The СКАТ special-number test, as a Boolean. -/
def specialB (v : Int) : Bool := decide (v ∈ special_numbers)

/-- The invariant of `difference_groups`: keys are distinct and every
stored value belongs to the group of its own digit difference. -/
def GroupsWF (gs : List (Nat × List Int)) : Prop :=
  (gs.map Prod.fst).Nodup ∧
    ∀ p ∈ gs, ∀ v ∈ p.2, calculate_digit_difference v = some p.1

/-- The table with every row cut after the scanned slots. -/
def truncTable (t : Table) (k : Nat) : Table :=
  Table.mk t.ncols (t.rows.map (fun r => r.take k))

/-- The mirror of a two-digit number in the sense of the specification:
the number with its decimal digits swapped (the code itself never builds
mirrors; it only detects self-mirrors via `is_mirror_number`). -/
def mirrorNum (v : Int) : Option Int :=
  if 10 ≤ v ∧ v ≤ 99 then some (((v.toNat % 10) * 10 + v.toNat / 10 : Nat) : Int)
  else none

/-- Modelled from the spec: the per-line shape `renderStampLines` promises
for its output — each emitted line holds either a single number or a
mirror pair.  Stated over the code's emitted lines to compare the two. -/
def specLineOkB (line : Nat × List (Int × Nat)) : Bool :=
  match line.2 with
  | [] => true
  | [_] => true
  | [(x, _), (y, _)] => mirrorNum x = some y
  | _ => false

/-! ## Concrete example tables used by counterexamples and witnesses -/

/-- One record whose СКАТ-scanned slots hold 12 once and 34 four times. -/
def exRowA : Row := ["000001", "12", "34", "34", "34", "34", "34"]

/-- A 7-column table holding only `exRowA`. -/
def exTableA : Table := Table.mk 7 [exRowA]

/-- One record whose six slots all fall into digit-difference group 1. -/
def exRowB : Row := ["000001", "21", "23", "45", "67", "89", "10"]

/-- A 7-column table holding only `exRowB`. -/
def exTableB : Table := Table.mk 7 [exRowB]

/-- Records 000001 and 000002 only; identity 000003 is absent. -/
def exTableC : Table :=
  Table.mk 7 [["000001", "10", "10", "10", "10", "10", "10"],
              ["000002", "10", "10", "10", "10", "10", "10"]]

/-- A record stored with the unpadded identity string `"1234"`. -/
def exTableD : Table := Table.mk 7 [["1234", "21", "23", "45", "67", "89", "10"]]

/-- A table with fewer than 7 columns. -/
def exTableE : Table := Table.mk 3 [["1", "2", "3"]]

/-- A 7-column table with a duplicated identity and a one-digit slot. -/
def exTableF : Table :=
  Table.mk 7 [["1", "12", "34", "56", "78", "90", ""],
              ["1", "12", "5", "34", "34", "34", "34"]]

/-! ## Counter lemmas -/

theorem lookupCnt_bumpKey (acc : List (Int × Nat)) (x v : Int) :
    lookupCnt (bumpKey acc x) v
      = lookupCnt acc v + (if v = x then 1 else 0) := by
  induction acc with
  | nil =>
    by_cases h : v = x
    · subst h; simp [bumpKey, lookupCnt]
    · simp [bumpKey, lookupCnt, h, Ne.symm h]
  | cons p rest ih =>
    obtain ⟨k, c⟩ := p
    by_cases hk : k = x
    · subst hk
      by_cases hv : k = v
      · subst hv; simp [bumpKey, lookupCnt]
      · simp [bumpKey, lookupCnt, hv, Ne.symm hv]
    · by_cases hv : k = v
      · subst hv
        simp [bumpKey, lookupCnt, hk, Ne.symm hk]
      · simp [bumpKey, lookupCnt, hk, hv, ih]

theorem lookupCnt_foldl_bumpKey (l : List Int) (acc : List (Int × Nat)) (v : Int) :
    lookupCnt (l.foldl bumpKey acc) v = lookupCnt acc v + l.count v := by
  induction l generalizing acc with
  | nil => simp
  | cons x xs ih =>
    simp only [List.foldl_cons, ih, lookupCnt_bumpKey, List.count_cons]
    by_cases h : v = x <;> simp [h] <;> omega

theorem lookupCnt_counterList (l : List Int) (v : Int) :
    lookupCnt (counterList l) v = l.count v := by
  simpa [counterList, lookupCnt] using lookupCnt_foldl_bumpKey l [] v

theorem keys_bumpKey (acc : List (Int × Nat)) (x : Int) :
    (bumpKey acc x).map Prod.fst
      = if x ∈ acc.map Prod.fst then acc.map Prod.fst
        else acc.map Prod.fst ++ [x] := by
  induction acc with
  | nil => simp [bumpKey]
  | cons p rest ih =>
    obtain ⟨k, c⟩ := p
    by_cases hk : k = x
    · simp [bumpKey, hk]
    · by_cases hm : x ∈ rest.map Prod.fst
      · simp [bumpKey, hk, ih, hm, List.mem_cons]
      · simp [bumpKey, hk, ih, hm, List.mem_cons, Ne.symm hk]

theorem nodup_keys_foldl_bumpKey (l : List Int) (acc : List (Int × Nat))
    (h : (acc.map Prod.fst).Nodup) : ((l.foldl bumpKey acc).map Prod.fst).Nodup := by
  induction l generalizing acc with
  | nil => simpa
  | cons x xs ih =>
    refine ih (bumpKey acc x) ?_
    rw [keys_bumpKey]
    split
    · exact h
    · next hmem =>
      rw [List.nodup_append]
      refine ⟨h, List.nodup_singleton x, ?_⟩
      intro a ha hax
      simp only [List.mem_singleton] at hax
      subst hax
      exact hmem ha

theorem nodup_keys_counterList (l : List Int) :
    ((counterList l).map Prod.fst).Nodup :=
  nodup_keys_foldl_bumpKey l [] (by simp)

theorem mem_keys_foldl_bumpKey (l : List Int) (acc : List (Int × Nat)) (v : Int)
    (h : v ∈ (l.foldl bumpKey acc).map Prod.fst) :
    v ∈ acc.map Prod.fst ∨ v ∈ l := by
  induction l generalizing acc with
  | nil => exact Or.inl (by simpa using h)
  | cons x xs ih =>
    rcases ih (bumpKey acc x) h with hm | hm
    · rw [keys_bumpKey] at hm
      split at hm
      · exact Or.inl hm
      · rcases List.mem_append.mp hm with hm2 | hm2
        · exact Or.inl hm2
        · simp at hm2
          simp [hm2]
    · simp [hm]

theorem mem_keys_counterList (l : List Int) (v : Int)
    (h : v ∈ (counterList l).map Prod.fst) : v ∈ l := by
  rcases mem_keys_foldl_bumpKey l [] v h with hm | hm
  · simp at hm
  · exact hm

/-! ## Sorting lemmas -/

theorem insertNat_perm (x : Nat) (l : List Nat) :
    List.Perm (insertNat x l) (x :: l) := by
  induction l with
  | nil => simp [insertNat]
  | cons z zs ih =>
    by_cases hz : x ≤ z
    · simp [insertNat, hz]
    · rw [insertNat, if_neg hz]
      exact (ih.cons z).trans (List.Perm.swap x z zs)

theorem sortNat_perm (l : List Nat) : List.Perm (sortNat l) l := by
  induction l with
  | nil => simp [sortNat]
  | cons z zs ih =>
    exact (insertNat_perm z (sortNat zs)).trans (ih.cons z)

theorem nodup_sortNat (l : List Nat) (h : l.Nodup) : (sortNat l).Nodup :=
  (sortNat_perm l).nodup_iff.mpr h

theorem mem_sortNat (x : Nat) (l : List Nat) : x ∈ sortNat l ↔ x ∈ l :=
  (sortNat_perm l).mem_iff

/-! ## Scan invariants

The scan loop is characterised by folding `processValue` over the flat
list of successfully parsed slot values, and each counter and group of
the result is expressed over that list. -/

theorem scanRows_eq_foldl (skat : Bool) (rows : List Row) :
    scanRows skat rows
      = (rows.flatMap (parsedRow skat)).foldl (processValue skat) initResults := by
  suffices h : ∀ (res : AnalysisResults) (rows : List Row),
      rows.foldl (scanRow skat) res
        = (rows.flatMap (parsedRow skat)).foldl (processValue skat) res by
    exact h initResults rows
  intro res rows
  induction rows generalizing res with
  | nil => simp
  | cons r rs ih =>
    simp only [List.foldl_cons, List.flatMap_cons, List.foldl_append]
    exact ih (scanRow skat res r)

theorem twoDigitB_false {v : Int} (h : ¬(10 ≤ v ∧ v ≤ 99)) :
    twoDigitB v = false := by
  rcases not_and_or.mp h with h1 | h1 <;> simp [twoDigitB, h1]

theorem skatSpecial_false {skat : Bool} {v : Int}
    (hs : ¬(skat = true ∧ v ∈ special_numbers)) : (skat && specialB v) = false := by
  by_cases hsk : skat = true
  · have hv : v ∉ special_numbers := fun hv => hs ⟨hsk, hv⟩
    simp [hsk, specialB, hv]
  · simp [Bool.eq_false_iff.mpr hsk]

theorem processValue_total (skat : Bool) (res : AnalysisResults) (v : Int) :
    (processValue skat res v).total_count
      = res.total_count + (if twoDigitB v then 1 else 0) := by
  by_cases h : 10 ≤ v ∧ v ≤ 99
  · have hb : twoDigitB v = true := by simp [twoDigitB, h.1, h.2]
    by_cases hs : skat = true ∧ v ∈ special_numbers <;>
      cases hcd : calculate_digit_difference v <;>
        by_cases hm : is_mirror_number v = true <;>
          simp [processValue, h, hs, hcd, hm, hb]
  · simp [processValue, h, twoDigitB_false h]

theorem processValue_doubled (skat : Bool) (res : AnalysisResults) (v : Int) :
    (processValue skat res v).doubled_count
      = res.doubled_count
        + (if twoDigitB v && !(skat && specialB v) then 2 else 0) := by
  by_cases h : 10 ≤ v ∧ v ≤ 99
  · have hb : twoDigitB v = true := by simp [twoDigitB, h.1, h.2]
    by_cases hs : skat = true ∧ v ∈ special_numbers
    · have hss : (skat && specialB v) = true := by simp [hs.1, specialB, hs.2]
      cases hcd : calculate_digit_difference v <;>
        by_cases hm : is_mirror_number v = true <;>
          simp [processValue, specialB, h, hs, hs.2, hcd, hm, hb, hss]
    · have hss := skatSpecial_false hs
      cases hcd : calculate_digit_difference v <;>
        by_cases hm : is_mirror_number v = true <;>
          simp [processValue, h, hs, hcd, hm, hb, hss]
  · simp [processValue, h, twoDigitB_false h]

theorem processValue_quadrupled (skat : Bool) (res : AnalysisResults) (v : Int) :
    (processValue skat res v).quadrupled_count
      = res.quadrupled_count
        + (if twoDigitB v && skat && specialB v then 4 else 0) := by
  by_cases h : 10 ≤ v ∧ v ≤ 99
  · have hb : twoDigitB v = true := by simp [twoDigitB, h.1, h.2]
    by_cases hs : skat = true ∧ v ∈ special_numbers
    · have hss : (skat && specialB v) = true := by simp [hs.1, specialB, hs.2]
      cases hcd : calculate_digit_difference v <;>
        by_cases hm : is_mirror_number v = true <;>
          simp [processValue, specialB, h, hs, hs.2, hcd, hm, hb, hss]
    · have hss := skatSpecial_false hs
      cases hcd : calculate_digit_difference v <;>
        by_cases hm : is_mirror_number v = true <;>
          simp [processValue, h, hs, hcd, hm, hb, hss]
  · simp [processValue, h, twoDigitB_false h]

theorem total_foldl_processValue (skat : Bool) (l : List Int)
    (res : AnalysisResults) :
    (l.foldl (processValue skat) res).total_count
      = res.total_count + (l.filter twoDigitB).length := by
  induction l generalizing res with
  | nil => simp
  | cons v vs ih =>
    rcases Bool.eq_false_or_eq_true (twoDigitB v) with hb | hb <;>
      simp only [List.foldl_cons, ih, processValue_total, List.filter_cons, hb] <;>
      simp <;> omega

theorem doubled_foldl_processValue (skat : Bool) (l : List Int)
    (res : AnalysisResults) :
    (l.foldl (processValue skat) res).doubled_count
      = res.doubled_count
        + 2 * (l.filter (fun v => twoDigitB v && !(skat && specialB v))).length := by
  induction l generalizing res with
  | nil => simp
  | cons v vs ih =>
    rcases Bool.eq_false_or_eq_true (twoDigitB v && !(skat && specialB v)) with hb | hb <;>
      simp only [List.foldl_cons, ih, processValue_doubled, List.filter_cons, hb] <;>
      simp <;> omega

theorem quadrupled_foldl_processValue (skat : Bool) (l : List Int)
    (res : AnalysisResults) :
    (l.foldl (processValue skat) res).quadrupled_count
      = res.quadrupled_count
        + 4 * (l.filter (fun v => twoDigitB v && skat && specialB v)).length := by
  induction l generalizing res with
  | nil => simp
  | cons v vs ih =>
    rcases Bool.eq_false_or_eq_true (twoDigitB v && skat && specialB v) with hb | hb <;>
      simp only [List.foldl_cons, ih, processValue_quadrupled, List.filter_cons, hb] <;>
      simp <;> omega

/-! ## Group invariants and occurrence counts -/

theorem count_flatMap_addToGroup (gs : List (Nat × List Int)) (d : Nat) (v x : Int) :
    ((addToGroup gs d v).flatMap Prod.snd).count x
      = (gs.flatMap Prod.snd).count x + (if x = v then 1 else 0) := by
  by_cases hx : x = v
  · subst hx
    simp only [if_pos rfl]
    induction gs with
    | nil => simp [addToGroup]
    | cons p rest ih =>
      obtain ⟨k, l⟩ := p
      by_cases hk : k = d
      · subst hk
        simp [addToGroup, List.count_append]
        omega
      · simp only [addToGroup, if_neg hk, List.flatMap_cons, List.count_append, ih]
        omega
  · simp only [if_neg hx]
    induction gs with
    | nil => simp [addToGroup, hx]
    | cons p rest ih =>
      obtain ⟨k, l⟩ := p
      by_cases hk : k = d
      · subst hk
        simp [addToGroup, List.count_append, hx]
      · simp only [addToGroup, if_neg hk, List.flatMap_cons, List.count_append, ih]
        omega

theorem processValue_occ (skat : Bool) (res : AnalysisResults) (v x : Int) :
    occCount (processValue skat res v) x
      = occCount res x
        + (if twoDigitB v then (if x = v then 1 else 0) else 0) := by
  by_cases h : 10 ≤ v ∧ v ≤ 99
  · have hb : twoDigitB v = true := by simp [twoDigitB, h.1, h.2]
    have hcd : calculate_digit_difference v
        = some (Nat.dist (v.toNat / 10) (v.toNat % 10)) := by
      simp [calculate_digit_difference, h]
    by_cases hs : skat = true ∧ v ∈ special_numbers <;>
      by_cases hm : is_mirror_number v = true <;>
        simp [processValue, occCount, h, hs, hcd, hm, hb,
          count_flatMap_addToGroup]
  · simp [processValue, h, twoDigitB_false h]

theorem occ_foldl_processValue (skat : Bool) (l : List Int)
    (res : AnalysisResults) (x : Int) :
    occCount (l.foldl (processValue skat) res) x
      = occCount res x + (l.filter twoDigitB).count x := by
  induction l generalizing res with
  | nil => simp
  | cons v vs ih =>
    rcases Bool.eq_false_or_eq_true (twoDigitB v) with hb | hb <;>
      simp only [List.foldl_cons, ih, processValue_occ, List.filter_cons, hb] <;>
      by_cases hx : x = v <;>
        simp [List.count_cons, hx] <;>
        omega

theorem keys_addToGroup (gs : List (Nat × List Int)) (d : Nat) (v : Int) :
    (addToGroup gs d v).map Prod.fst
      = if d ∈ gs.map Prod.fst then gs.map Prod.fst
        else gs.map Prod.fst ++ [d] := by
  induction gs with
  | nil => simp [addToGroup]
  | cons p rest ih =>
    obtain ⟨k, l⟩ := p
    by_cases hk : k = d
    · simp [addToGroup, hk]
    · by_cases hm : d ∈ rest.map Prod.fst
      · simp [addToGroup, hk, ih, hm, List.mem_cons]
      · simp [addToGroup, hk, ih, hm, List.mem_cons, Ne.symm hk]

theorem addToGroup_WF {gs : List (Nat × List Int)} {d : Nat} {v : Int}
    (hWF : GroupsWF gs) (hv : calculate_digit_difference v = some d) :
    GroupsWF (addToGroup gs d v) := by
  induction gs with
  | nil =>
    refine ⟨by simp [addToGroup], ?_⟩
    intro p hp w hw
    simp only [addToGroup, List.mem_singleton] at hp
    subst hp
    simp only [List.mem_singleton] at hw
    subst hw
    exact hv
  | cons q rest ih =>
    obtain ⟨k, l⟩ := q
    obtain ⟨hnd, hmem⟩ := hWF
    simp only [List.map_cons, List.nodup_cons] at hnd
    obtain ⟨hknotin, hndrest⟩ := hnd
    by_cases hk : k = d
    · subst hk
      have hred : addToGroup ((k, l) :: rest) k v = (k, l ++ [v]) :: rest := by
        simp [addToGroup]
      rw [hred]
      refine ⟨?_, ?_⟩
      · simp only [List.map_cons, List.nodup_cons]
        exact ⟨hknotin, hndrest⟩
      intro p hp w hw
      simp only [List.mem_cons] at hp
      rcases hp with hp | hp
      · subst hp
        simp only [List.mem_append, List.mem_singleton] at hw
        rcases hw with hw | hw
        · exact hmem (k, l) (by simp) w hw
        · subst hw
          exact hv
      · exact hmem p (by simp [hp]) w hw
    · have ihWF : GroupsWF (addToGroup rest d v) :=
        ih ⟨hndrest, fun p hp w hw => hmem p (by simp [hp]) w hw⟩
      refine ⟨?_, ?_⟩
      · simp only [addToGroup, if_neg hk, List.map_cons, List.nodup_cons]
        refine ⟨?_, ihWF.1⟩
        rw [keys_addToGroup]
        split
        · exact hknotin
        · intro hc
          rcases List.mem_append.mp hc with hc | hc
          · exact hknotin hc
          · simp only [List.mem_singleton] at hc
            exact hk hc
      · intro p hp w hw
        simp only [addToGroup, if_neg hk, List.mem_cons] at hp
        rcases hp with hp | hp
        · subst hp
          exact hmem (k, l) (by simp) w hw
        · exact ihWF.2 p hp w hw

theorem processValue_WF (skat : Bool) (res : AnalysisResults) (v : Int)
    (h : GroupsWF res.difference_groups) :
    GroupsWF (processValue skat res v).difference_groups := by
  by_cases hv : 10 ≤ v ∧ v ≤ 99
  · have hcd : calculate_digit_difference v
        = some (Nat.dist (v.toNat / 10) (v.toNat % 10)) := by
      simp [calculate_digit_difference, hv]
    by_cases hs : skat = true ∧ v ∈ special_numbers <;>
      by_cases hm : is_mirror_number v = true <;>
        simpa [processValue, hv, hs, hcd, hm] using addToGroup_WF h hcd
  · simpa [processValue, hv] using h

theorem foldl_processValue_WF (skat : Bool) (l : List Int)
    (res : AnalysisResults) (h : GroupsWF res.difference_groups) :
    GroupsWF (l.foldl (processValue skat) res).difference_groups := by
  induction l generalizing res with
  | nil => simpa
  | cons v vs ih => exact ih (processValue skat res v) (processValue_WF skat res v h)

theorem scanRows_WF (skat : Bool) (rows : List Row) :
    GroupsWF (scanRows skat rows).difference_groups := by
  rw [scanRows_eq_foldl]
  exact foldl_processValue_WF skat _ initResults ⟨by simp [initResults], by simp [initResults]⟩

theorem occ_eq_zero_of_diff_none {gs : List (Nat × List Int)} {x : Int}
    (hWF : GroupsWF gs) (hx : calculate_digit_difference x = none) :
    (gs.flatMap Prod.snd).count x = 0 := by
  rw [List.count_eq_zero]
  intro hmem
  rcases List.mem_flatMap.mp hmem with ⟨p, hp, hxp⟩
  have := hWF.2 p hp x hxp
  rw [hx] at this
  exact Option.noConfusion this

theorem occ_eq_lookupGroup_count {gs : List (Nat × List Int)} {x : Int} {d : Nat}
    (hWF : GroupsWF gs) (hx : calculate_digit_difference x = some d) :
    (gs.flatMap Prod.snd).count x = (lookupGroup gs d).count x := by
  induction gs with
  | nil => simp [lookupGroup]
  | cons q rest ih =>
    obtain ⟨k, l⟩ := q
    obtain ⟨hnd, hmem⟩ := hWF
    simp only [List.map_cons, List.nodup_cons] at hnd
    obtain ⟨hknotin, hndrest⟩ := hnd
    have hWFrest : GroupsWF rest :=
      ⟨hndrest, fun p hp w hw => hmem p (by simp [hp]) w hw⟩
    by_cases hk : k = d
    · subst hk
      rw [List.flatMap_cons, List.count_append, lookupGroup, if_pos rfl]
      have hrest : (rest.flatMap Prod.snd).count x = 0 := by
        rw [List.count_eq_zero]
        intro hmem2
        rcases List.mem_flatMap.mp hmem2 with ⟨p, hp, hxp⟩
        have hpd := hmem p (by simp [hp]) x hxp
        rw [hx] at hpd
        have : p.1 = k := by
          have := Option.some.inj hpd
          omega
        exact hknotin (this ▸ List.mem_map_of_mem Prod.fst hp)
      simp [hrest]
    · rw [List.flatMap_cons, List.count_append, lookupGroup, if_neg hk]
      have hl : l.count x = 0 := by
        rw [List.count_eq_zero]
        intro hxl
        have := hmem (k, l) (by simp) x hxl
        rw [hx] at this
        exact hk (Option.some.inj this).symm
      rw [hl, ih hWFrest]
      simp

theorem formatDisplayCount_eq_occ (res : AnalysisResults) (x : Int)
    (hWF : GroupsWF res.difference_groups) :
    formatDisplayCount res x = occCount res x := by
  cases hx : calculate_digit_difference x with
  | none =>
    simpa [formatDisplayCount, occCount, hx] using
      (occ_eq_zero_of_diff_none hWF hx).symm
  | some d =>
    simp only [formatDisplayCount, occCount, hx]
    rw [lookupCnt_counterList, occ_eq_lookupGroup_count hWF hx]

/-! ## Parsing and formatting facts

`pyInt (formatInt06 n) = some n`: re-parsing a rendered identity recovers
the integer, the key fact behind the `int(start_num)` calls of
`analyze_range`. -/

theorem isDigitC_digitChar {d : Nat} (h : d < 10) :
    isDigitC (digitChar d) = true := by
  interval_cases d <;> rfl

theorem digitVal_digitChar {d : Nat} (h : d < 10) : digitVal (digitChar d) = d := by
  interval_cases d <;> rfl

theorem not_ws_of_digit {c : Char} (h : isDigitC c = true) : isWsC c = false := by
  simp only [isDigitC, Bool.and_eq_true, decide_eq_true_eq] at h
  simp only [isWsC, Bool.or_eq_false_iff, Bool.and_eq_false_iff]
  constructor
  · simp only [decide_eq_false_iff_not]
    omega
  · right
    simp only [decide_eq_false_iff_not]
    omega

theorem ne_of_digit {c : Char} (h : isDigitC c = true) {c2 : Char}
    (h2 : isDigitC c2 = false) : c ≠ c2 := by
  intro he
  subst he
  rw [h] at h2
  exact Bool.noConfusion h2

theorem dropWhile_eq_self_of_not {p : Char → Bool} {cs : List Char}
    (h : ∀ c ∈ cs, p c = false) : cs.dropWhile p = cs := by
  cases cs with
  | nil => rfl
  | cons c rest =>
    rw [List.dropWhile_cons, h c (by simp)]
    simp

theorem stripWsBoth_eq_self {cs : List Char} (h : ∀ c ∈ cs, isWsC c = false) :
    stripWsBoth cs = cs := by
  unfold stripWsBoth
  rw [dropWhile_eq_self_of_not h,
    dropWhile_eq_self_of_not (fun c hc => h c (List.mem_reverse.mp hc)),
    List.reverse_reverse]

theorem pyDigitsRest_of_all_digits {cs : List Char}
    (h : ∀ c ∈ cs, isDigitC c = true) : pyDigitsRest cs = true := by
  induction cs with
  | nil => rfl
  | cons c rest ih =>
    have hc := h c (by simp)
    cases rest with
    | nil => simpa [pyDigitsRest] using hc
    | cons c2 rest2 =>
      rw [pyDigitsRest, if_neg (ne_of_digit hc (by decide))]
      rw [hc, ih (fun x hx => h x (by simp [hx]))]
      rfl

theorem pyDigitsOk_of_all_digits {c : Char} {rest : List Char}
    (hc : isDigitC c = true) (h : ∀ c2 ∈ rest, isDigitC c2 = true) :
    pyDigitsOk (c :: rest) = true := by
  rw [pyDigitsOk, hc, pyDigitsRest_of_all_digits h]
  rfl

theorem filter_underscore_of_all_digits {cs : List Char}
    (h : ∀ c ∈ cs, isDigitC c = true) :
    cs.filter (fun c => c ≠ '_') = cs := by
  rw [List.filter_eq_self]
  intro c hc
  simpa using ne_of_digit (h c hc) (by rfl)

theorem pyValAux_nil (a : Nat) : pyValAux a [] = a := rfl

theorem pyValAux_cons (a : Nat) (c : Char) (rest : List Char) :
    pyValAux a (c :: rest) = pyValAux (10 * a + digitVal c) rest := rfl

theorem pyValAux_append (l1 l2 : List Char) (a : Nat) :
    pyValAux a (l1 ++ l2) = pyValAux (pyValAux a l1) l2 := by
  induction l1 generalizing a with
  | nil => rfl
  | cons c rest ih => rw [List.cons_append, pyValAux_cons, pyValAux_cons, ih]

theorem pyValAux_zeros (k : Nat) (a : Nat) :
    pyValAux a (List.replicate k '0') = a * 10 ^ k := by
  induction k generalizing a with
  | zero => simp [pyValAux_nil]
  | succ m ih =>
    rw [List.replicate_succ, pyValAux_cons, ih]
    have : digitVal '0' = 0 := rfl
    rw [this]
    ring

theorem pyVal_padZeros (cs : List Char) (w : Nat) :
    pyVal (padZeros cs w) = pyVal cs := by
  unfold padZeros pyVal
  rw [pyValAux_append, pyValAux_zeros]
  simp

theorem natDigitsAux_all_digits {fuel n : Nat} {c : Char}
    (h : c ∈ natDigitsAux fuel n) : isDigitC c = true := by
  induction fuel generalizing n with
  | zero =>
    cases n <;> simp [natDigitsAux] at h
  | succ m ih =>
    cases n with
    | zero => simp [natDigitsAux] at h
    | succ k =>
      rw [natDigitsAux] at h
      rcases List.mem_append.mp h with h2 | h2
      · exact ih h2
      · simp only [List.mem_singleton] at h2
        subst h2
        exact isDigitC_digitChar (Nat.mod_lt _ (by omega))

theorem natDigits_all_digits {n : Nat} {c : Char} (h : c ∈ natDigits n) :
    isDigitC c = true := by
  unfold natDigits at h
  split at h
  · simp only [List.mem_singleton] at h
    subst h
    rfl
  · exact natDigitsAux_all_digits h

theorem natDigits_ne_nil (n : Nat) : natDigits n ≠ [] := by
  unfold natDigits
  split
  · simp
  · next h =>
    cases n with
    | zero => exact absurd rfl h
    | succ k => simp [natDigitsAux]

theorem natDigitsAux_val {fuel n : Nat} (h : n ≤ fuel) :
    pyVal (natDigitsAux fuel n) = n := by
  induction fuel generalizing n with
  | zero =>
    interval_cases n
    rfl
  | succ m ih =>
    cases n with
    | zero => rfl
    | succ k =>
      rw [natDigitsAux]
      unfold pyVal
      rw [pyValAux_append]
      have hkd : (k + 1) / 10 ≤ m := by
        have := Nat.div_lt_self (Nat.succ_pos k) (by omega : 1 < 10)
        omega
      have hih := ih hkd
      unfold pyVal at hih
      rw [hih, pyValAux_cons]
      have : digitVal (digitChar ((k + 1) % 10)) = (k + 1) % 10 :=
        digitVal_digitChar (Nat.mod_lt _ (by omega))
      rw [this, pyValAux_nil]
      omega

theorem natDigits_val (n : Nat) : pyVal (natDigits n) = n := by
  unfold natDigits
  split
  · next h => subst h; rfl
  · exact natDigitsAux_val (Nat.le_succ n)

theorem padZeros_all_digits {cs : List Char} (h : ∀ c ∈ cs, isDigitC c = true)
    (w : Nat) : ∀ c ∈ padZeros cs w, isDigitC c = true := by
  intro c hc
  rcases List.mem_append.mp hc with hc2 | hc2
  · have := List.eq_of_mem_replicate hc2
    subst this
    rfl
  · exact h c hc2

theorem padZeros_ne_nil {cs : List Char} (h : cs ≠ []) (w : Nat) :
    padZeros cs w ≠ [] := by
  unfold padZeros
  intro hc
  rcases List.append_eq_nil.mp hc with ⟨h1, h2⟩
  exact h h2

theorem pyInt_mk_eq_core {cs : List Char} (h : ∀ c ∈ cs, isWsC c = false) :
    pyInt (String.mk cs) = pyIntCore cs := by
  have htl : (String.mk cs).toList = cs := rfl
  rw [pyInt, htl, stripWsBoth_eq_self h]

theorem pyInt_formatInt06 (n : Int) : pyInt (formatInt06 n) = some n := by
  by_cases hn : n < 0
  · have hdig : ∀ c ∈ padZeros (natDigits n.natAbs) 5, isDigitC c = true :=
      padZeros_all_digits (fun c hc => natDigits_all_digits hc) 5
    have hnws : ∀ c ∈ '-' :: padZeros (natDigits n.natAbs) 5, isWsC c = false := by
      intro c hc
      rcases List.mem_cons.mp hc with hc2 | hc2
      · subst hc2; rfl
      · exact not_ws_of_digit (hdig c hc2)
    rw [formatInt06, if_pos hn, pyInt_mk_eq_core hnws]
    obtain ⟨c, rest, hcr⟩ :=
      List.exists_cons_of_ne_nil (padZeros_ne_nil (natDigits_ne_nil n.natAbs) 5)
    rw [hcr, pyIntCore]
    have hc : isDigitC c = true := hdig c (by simp [hcr])
    have hrest : ∀ c2 ∈ rest, isDigitC c2 = true :=
      fun c2 hc2 => hdig c2 (by simp [hcr, hc2])
    rw [if_neg (by decide : ¬('-' : Char) = '+'), if_pos rfl]
    rw [if_pos (pyDigitsOk_of_all_digits hc hrest)]
    have hval : pyDigitsVal (c :: rest) = n.natAbs := by
      rw [pyDigitsVal, filter_underscore_of_all_digits (by
        intro c2 hc2
        rcases List.mem_cons.mp hc2 with hc3 | hc3
        · subst hc3; exact hc
        · exact hrest c2 hc3)]
      rw [← hcr, pyVal_padZeros, natDigits_val]
    rw [hval]
    have habs : ((n.natAbs : Nat) : Int) = -n := by omega
    rw [habs, neg_neg]
  · have hdig : ∀ c ∈ padZeros (natDigits n.toNat) 6, isDigitC c = true :=
      padZeros_all_digits (fun c hc => natDigits_all_digits hc) 6
    rw [formatInt06, if_neg hn,
      pyInt_mk_eq_core (fun c hc => not_ws_of_digit (hdig c hc))]
    obtain ⟨c, rest, hcr⟩ :=
      List.exists_cons_of_ne_nil (padZeros_ne_nil (natDigits_ne_nil n.toNat) 6)
    rw [hcr, pyIntCore]
    have hc : isDigitC c = true := hdig c (by simp [hcr])
    have hrest : ∀ c2 ∈ rest, isDigitC c2 = true :=
      fun c2 hc2 => hdig c2 (by simp [hcr, hc2])
    rw [if_neg (ne_of_digit hc (by decide)), if_neg (ne_of_digit hc (by decide))]
    rw [if_pos (pyDigitsOk_of_all_digits hc hrest)]
    have hval : pyDigitsVal (c :: rest) = n.toNat := by
      rw [pyDigitsVal, filter_underscore_of_all_digits (by
        intro c2 hc2
        rcases List.mem_cons.mp hc2 with hc3 | hc3
        · subst hc3; exact hc
        · exact hrest c2 hc3)]
      rw [← hcr, pyVal_padZeros, natDigits_val]
    rw [hval]
    have htn : ((n.toNat : Nat) : Int) = n := by omega
    rw [htn]

/-! ## Value bounds and string lengths -/

theorem pyValAux_lt {cs : List Char} (h : ∀ c ∈ cs, isDigitC c = true)
    (a : Nat) : pyValAux a cs < (a + 1) * 10 ^ cs.length := by
  induction cs generalizing a with
  | nil => simp [pyValAux_nil]
  | cons c rest ih =>
    rw [pyValAux_cons, List.length_cons]
    have hd : digitVal c ≤ 9 := by
      have := h c (by simp)
      simp only [isDigitC, Bool.and_eq_true, decide_eq_true_eq] at this
      unfold digitVal
      omega
    have hih := ih (fun x hx => h x (by simp [hx])) (10 * a + digitVal c)
    calc pyValAux (10 * a + digitVal c) rest
        < (10 * a + digitVal c + 1) * 10 ^ rest.length := hih
      _ ≤ ((a + 1) * 10) * 10 ^ rest.length :=
          Nat.mul_le_mul_right _ (by omega)
      _ = (a + 1) * 10 ^ (rest.length + 1) := by ring

theorem pyVal_lt {cs : List Char} (h : ∀ c ∈ cs, isDigitC c = true) :
    pyVal cs < 10 ^ cs.length := by
  have := pyValAux_lt h 0
  simpa [pyVal] using this

theorem natDigitsAux_length {fuel n k : Nat} (hn : n < 10 ^ k) :
    (natDigitsAux fuel n).length ≤ k := by
  induction fuel generalizing n k with
  | zero => cases n <;> simp [natDigitsAux]
  | succ m ih =>
    cases n with
    | zero => simp [natDigitsAux]
    | succ j =>
      rw [natDigitsAux, List.length_append]
      have hk : k ≠ 0 := by
        intro h0
        subst h0
        simp at hn
      obtain ⟨k2, rfl⟩ : ∃ k2, k = k2 + 1 := ⟨k - 1, by omega⟩
      have hdiv : (j + 1) / 10 < 10 ^ k2 := by
        rw [Nat.div_lt_iff_lt_mul (by omega : 0 < 10)]
        calc j + 1 < 10 ^ (k2 + 1) := hn
          _ = 10 ^ k2 * 10 := by ring
      have := ih hdiv
      simp only [List.length_singleton]
      omega

theorem natDigits_length_le {n : Nat} (h : n < 10 ^ 6) :
    (natDigits n).length ≤ 6 := by
  unfold natDigits
  split
  · simp
  · exact natDigitsAux_length h

theorem padZeros_length {cs : List Char} {w : Nat} (h : cs.length ≤ w) :
    (padZeros cs w).length = w := by
  simp only [padZeros, List.length_append, List.length_replicate]
  omega

theorem length_mk_list (cs : List Char) : (String.mk cs).length = cs.length := rfl

theorem formatInt06_length {n : Int} (h0 : 0 ≤ n) (h6 : n ≤ 999999) :
    (formatInt06 n).length = 6 := by
  rw [formatInt06, if_neg (by omega), length_mk_list]
  exact padZeros_length (natDigits_length_le (by omega))

theorem pyInt_of_digits {c : Char} {rest : List Char}
    (hc : isDigitC c = true) (hrest : ∀ x ∈ rest, isDigitC x = true) :
    pyInt (String.mk (c :: rest)) = some ((pyVal (c :: rest) : Nat) : Int) := by
  have hall : ∀ x ∈ c :: rest, isDigitC x = true := by
    intro x hx
    rcases List.mem_cons.mp hx with h | h
    · subst h; exact hc
    · exact hrest x h
  rw [pyInt_mk_eq_core (fun x hx => not_ws_of_digit (hall x hx)), pyIntCore]
  rw [if_neg (ne_of_digit hc (by decide)), if_neg (ne_of_digit hc (by decide))]
  rw [if_pos (pyDigitsOk_of_all_digits hc hrest)]
  rw [pyDigitsVal, filter_underscore_of_all_digits hall]

/-! ## Range enumeration and the analyzer under normalized endpoints -/

theorem mem_intRange {a b i : Int} : i ∈ intRange a b ↔ a ≤ i ∧ i ≤ b := by
  unfold intRange
  constructor
  · intro h
    rcases List.mem_map.mp h with ⟨k, hk, rfl⟩
    have := List.mem_range.mp hk
    omega
  · intro hi
    refine List.mem_map.mpr ⟨(i - a).toNat, List.mem_range.mpr (by omega), by omega⟩

theorem check_range_integrity_eq_filter (t : Table) (a b : Int) :
    check_range_integrity t a b
      = ((intRange a b).map formatInt06).filter (fun s => s ∉ col0 t) := by
  unfold check_range_integrity
  generalize intRange a b = l
  induction l with
  | nil => rfl
  | cons i rest ih =>
    simp only [List.filterMap_cons, List.map_cons, List.filter_cons]
    by_cases hm : formatInt06 i ∈ col0 t
    · simp [hm, ih]
    · simp [hm, ih]

theorem normalize_eq_some {s : String} {a : Int} (h : pyInt s = some a) :
    normalize_row_number s = some (formatInt06 a) := by
  rw [normalize_row_number, h]
  rfl

theorem analyze_range_normalized (t : Table) (sR eR : String) (skat : Bool)
    {a b : Int} (ha : pyInt sR = some a) (hb : pyInt eR = some b)
    (hab : a ≤ b) :
    analyze_range t sR eR skat
      = if check_range_integrity t a b = []
        then afterIntegrity t (formatInt06 a) (formatInt06 b) skat
        else (none, some (AnalyzeError.incomplete (check_range_integrity t a b))) := by
  simp only [analyze_range, normalize_eq_some ha, normalize_eq_some hb,
    pyInt_formatInt06, Option.getD_some]
  rw [if_neg (by omega : ¬ b < a)]

/-! ## Truncation: slots beyond the scanned count never matter -/

theorem filterMap_congr_mem {α β : Type} {l : List α} {f g : α → Option β}
    (h : ∀ a ∈ l, f a = g a) : l.filterMap f = l.filterMap g := by
  induction l with
  | nil => rfl
  | cons x xs ih =>
    rw [List.filterMap_cons, List.filterMap_cons, h x (by simp),
      ih (fun a ha => h a (by simp [ha]))]

theorem getD_take {α : Type} (r : List α) (k i : Nat) (d : α) (h : i < k) :
    (r.take k).getD i d = r.getD i d := by
  induction r generalizing k i with
  | nil => simp
  | cons x xs ih =>
    cases k with
    | zero => omega
    | succ m =>
      cases i with
      | zero => simp
      | succ j =>
        simp only [List.take_succ_cons, List.getD_cons_succ]
        exact ih m j (by omega)

theorem slotParse_take (r : Row) (k idx : Nat) (h : idx < k) :
    slotParse (r.take k) idx = slotParse r idx := by
  unfold slotParse
  rw [List.length_take]
  by_cases h2 : idx < r.length
  · rw [if_pos (by omega), if_pos h2]
    unfold cellAt
    rw [getD_take r k idx _ h]
  · rw [if_neg (by omega), if_neg h2]

theorem parsedRow_take (skat : Bool) (r : Row) :
    parsedRow skat (r.take (cols_to_analyze skat + 1)) = parsedRow skat r := by
  unfold parsedRow
  refine filterMap_congr_mem ?_
  intro idx hidx
  have := List.mem_range'_1.mp hidx
  exact slotParse_take r (cols_to_analyze skat + 1) idx (by omega)

theorem cellAt_take_zero (r : Row) (k : Nat) (hk : 0 < k) :
    cellAt (r.take k) 0 = cellAt r 0 := by
  unfold cellAt
  exact getD_take r k 0 "" hk

theorem col0_truncTable (t : Table) (skat : Bool) :
    col0 (truncTable t (cols_to_analyze skat + 1)) = col0 t := by
  unfold col0 truncTable
  simp only [List.map_map]
  refine List.map_congr_left ?_
  intro r hr
  exact cellAt_take_zero r _ (Nat.succ_pos _)

theorem analyze_range_truncate (t : Table) (sR eR : String) (skat : Bool) :
    analyze_range t sR eR skat
      = analyze_range (truncTable t (cols_to_analyze skat + 1)) sR eR skat := by
  have hcheck : ∀ a b : Int,
      check_range_integrity (truncTable t (cols_to_analyze skat + 1)) a b
        = check_range_integrity t a b := by
    intro a b
    unfold check_range_integrity
    rw [col0_truncTable]
  have hfilter : ∀ sN eN : String,
      rangeFilter (truncTable t (cols_to_analyze skat + 1)) sN eN
        = (rangeFilter t sN eN).map (fun r => r.take (cols_to_analyze skat + 1)) := by
    intro sN eN
    unfold rangeFilter truncTable
    rw [List.filter_map]
    congr 1
    apply List.filter_congr
    intro r hr
    simp only [Function.comp_apply, cellAt_take_zero r _ (Nat.succ_pos _)]
  have hscan : ∀ rows : List Row,
      scanRows skat (rows.map (fun r => r.take (cols_to_analyze skat + 1)))
        = scanRows skat rows := by
    intro rows
    unfold scanRows
    rw [List.foldl_map]
    have hfun : (fun (a : AnalysisResults) (r : Row) =>
        scanRow skat a (r.take (cols_to_analyze skat + 1))) = scanRow skat := by
      funext a r
      unfold scanRow
      rw [parsedRow_take]
    rw [hfun]
  unfold analyze_range
  cases hs : normalize_row_number sR with
  | none => rfl
  | some sN =>
    cases he : normalize_row_number eR with
    | none => rfl
    | some eN =>
      dsimp only
      rw [hcheck]
      by_cases hba : (pyInt eN).getD 0 < (pyInt sN).getD 0
      · rw [if_pos hba, if_pos hba]
      · rw [if_neg hba, if_neg hba]
        by_cases hmiss :
            check_range_integrity t ((pyInt sN).getD 0) ((pyInt eN).getD 0) = []
        · rw [if_pos hmiss, if_pos hmiss]
          unfold afterIntegrity
          rw [hfilter]
          cases hl : rangeFilter t sN eN with
          | nil => rfl
          | cons r rs =>
            dsimp only [List.map_cons]
            rw [← List.map_cons, hscan (r :: rs)]
        · rw [if_neg hmiss, if_neg hmiss]

/-! ## Additional lookup lemma used by the formatter claims -/

theorem diff_of_mem_lookupGroup {gs : List (Nat × List Int)} {d : Nat} {x : Int}
    (hmem : ∀ p ∈ gs, ∀ v ∈ p.2, calculate_digit_difference v = some p.1)
    (hx : x ∈ lookupGroup gs d) : calculate_digit_difference x = some d := by
  induction gs with
  | nil => simp [lookupGroup] at hx
  | cons q rest ih =>
    obtain ⟨k, l⟩ := q
    by_cases hk : k = d
    · subst hk
      simp only [lookupGroup, if_pos rfl] at hx
      exact hmem (k, l) (by simp) x hx
    · simp only [lookupGroup, if_neg hk] at hx
      exact ih (fun p hp => hmem p (by simp [hp])) hx

/-! ## The claims -/

/-- Claim C1, counterexample: in СКАТ (AlternateFive) mode the code never
increments the mirror of a scanned value.  Record 000001 holds the value
12 once among its scanned slots, yet its mirror 21 has occurrence count
0, not 1 as the claim requires. -/
theorem claim_c1_counterexample :
    (analyze_range exTableA "1" "1" true).snd = none ∧
    occCount ((analyze_range exTableA "1" "1" true).fst.getD initResults) 12 = 1 ∧
    occCount ((analyze_range exTableA "1" "1" true).fst.getD initResults) 21 = 0 := by
  decide

/-- Claim C1, amended: in both modes every number's occurrence count in
the analysis result equals exactly the number of scanned slot values
equal to it; no mirror incrementing happens in any mode. -/
theorem claim_c1_amended (skat : Bool) (rows : List Row) (v : Int) :
    occCount (scanRows skat rows) v
      = ((rows.flatMap (parsedRow skat)).filter twoDigitB).count v := by
  rw [scanRows_eq_foldl, occ_foldl_processValue]
  simp [occCount, initResults]

/-- Claim C2, counterexample: the per-number displayed count is the raw
occurrence count, not twice it.  In Standard mode the value 10 occurs
once in record 000001, and the formatter displays count 1, not 2. -/
theorem claim_c2_counterexample :
    (analyze_range exTableB "1" "1" false).snd = none ∧
    occCount ((analyze_range exTableB "1" "1" false).fst.getD initResults) 10 = 1 ∧
    formatDisplayCount
      ((analyze_range exTableB "1" "1" false).fst.getD initResults) 10 = 1 ∧
    ¬ formatDisplayCount
        ((analyze_range exTableB "1" "1" false).fst.getD initResults) 10
      = 2 * occCount ((analyze_range exTableB "1" "1" false).fst.getD initResults) 10 := by
  decide

/-- Claim C2, amended: for every analysis the displayed per-number count
equals the raw occurrence count; the doubling exists only in the
aggregate `doubled_count` (2 per counted non-special-or-Standard value)
and `quadrupled_count` (4 per counted СКАТ special value), while
`total_count` counts every accepted value once. -/
theorem claim_c2_amended (skat : Bool) (rows : List Row) (v : Int) :
    formatDisplayCount (scanRows skat rows) v = occCount (scanRows skat rows) v ∧
    (scanRows skat rows).doubled_count
      = 2 * ((rows.flatMap (parsedRow skat)).filter
          (fun x => twoDigitB x && !(skat && specialB x))).length ∧
    (scanRows skat rows).quadrupled_count
      = 4 * ((rows.flatMap (parsedRow skat)).filter
          (fun x => twoDigitB x && skat && specialB x)).length ∧
    (scanRows skat rows).total_count
      = ((rows.flatMap (parsedRow skat)).filter twoDigitB).length := by
  refine ⟨formatDisplayCount_eq_occ _ _ (scanRows_WF skat rows), ?_, ?_, ?_⟩
  · rw [scanRows_eq_foldl, doubled_foldl_processValue]
    simp [initResults]
  · rw [scanRows_eq_foldl, quadrupled_foldl_processValue]
    simp [initResults]
  · rw [scanRows_eq_foldl, total_foldl_processValue]
    simp [initResults]

/-- Claim C3: with successfully normalized, non-inverted endpoints,
`analyze_range` returns the incomplete-range error exactly when some
integer identity in the inclusive range has no matching record; the
missing list is exactly the zero-padded identities of the range absent
from the identity column, and no result accompanies the error. -/
theorem claim_c3 (t : Table) (sR eR : String) (skat : Bool) (a b : Int)
    (ha : pyInt sR = some a) (hb : pyInt eR = some b) (hab : a ≤ b) :
    (analyze_range t sR eR skat
        = (none, some (AnalyzeError.incomplete (check_range_integrity t a b)))
      ↔ check_range_integrity t a b ≠ []) ∧
    check_range_integrity t a b
      = ((intRange a b).map formatInt06).filter (fun x => x ∉ col0 t) ∧
    (check_range_integrity t a b ≠ [] ↔
      ∃ i : Int, a ≤ i ∧ i ≤ b ∧ formatInt06 i ∉ col0 t) ∧
    (∀ m, analyze_range t sR eR skat = (none, some (AnalyzeError.incomplete m)) →
      m = check_range_integrity t a b) := by
  have hshape := analyze_range_normalized t sR eR skat ha hb hab
  have hafter : ∀ m, afterIntegrity t (formatInt06 a) (formatInt06 b) skat
      ≠ (none, some (AnalyzeError.incomplete m)) := by
    intro m
    unfold afterIntegrity
    cases hl : rangeFilter t (formatInt06 a) (formatInt06 b) with
    | nil => simp
    | cons r rs => simp
  refine ⟨⟨?_, ?_⟩, check_range_integrity_eq_filter t a b, ⟨?_, ?_⟩, ?_⟩
  · intro heq hnil
    rw [hshape, if_pos hnil] at heq
    exact hafter _ heq
  · intro hne
    rw [hshape, if_neg hne]
  · intro hne
    rw [check_range_integrity_eq_filter] at hne
    obtain ⟨x, hx⟩ := List.exists_mem_of_ne_nil _ hne
    have hx2 := List.mem_filter.mp hx
    rcases List.mem_map.mp hx2.1 with ⟨i, hi, rfl⟩
    have hir := mem_intRange.mp hi
    exact ⟨i, hir.1, hir.2, by simpa using hx2.2⟩
  · rintro ⟨i, h1, h2, h3⟩ hnil
    have hmem : formatInt06 i
        ∈ ((intRange a b).map formatInt06).filter (fun x => x ∉ col0 t) :=
      List.mem_filter.mpr
        ⟨List.mem_map_of_mem _ (mem_intRange.mpr ⟨h1, h2⟩), by simpa using h3⟩
    rw [← check_range_integrity_eq_filter, hnil] at hmem
    simp at hmem
  · intro m hm
    by_cases hnil : check_range_integrity t a b = []
    · rw [hshape, if_pos hnil] at hm
      exact absurd hm (hafter m)
    · rw [hshape, if_neg hnil] at hm
      have := hm.symm
      simp only [Prod.mk.injEq, Option.some.injEq, AnalyzeError.incomplete.injEq] at this
      exact this.2

/-- Claim C3, witness: analyzing 000001..000003 over a table holding only
000001 and 000002 fails with the incomplete error naming 000003. -/
theorem claim_c3_witness :
    analyze_range exTableC "1" "3" false
      = (none, some (AnalyzeError.incomplete ["000003"])) := by
  have h := (claim_c3 exTableC "1" "3" false 1 3 (by decide) (by decide)
    (by decide)).1.mpr (by decide)
  rw [show check_range_integrity exTableC 1 3 = ["000003"] from by decide] at h
  exact h

/-- Claim C4: the scan reads exactly slots 1..6 in Standard mode and
1..5 in СКАТ mode: the mode's slot count is 6 resp. 5, truncating every
row after the scanned slots never changes the analysis (slots beyond the
count cannot contribute), every in-bounds scanned slot that parses does
contribute its value, and the scanned positions are exactly 1..count. -/
theorem claim_c4 (t : Table) (sR eR : String) (skat : Bool) :
    cols_to_analyze true = 5 ∧ cols_to_analyze false = 6 ∧
    analyze_range t sR eR skat
      = analyze_range (truncTable t (cols_to_analyze skat + 1)) sR eR skat ∧
    (∀ (r : Row) (idx : Nat) (v : Int), 1 ≤ idx → idx ≤ cols_to_analyze skat →
      slotParse r idx = some v → v ∈ parsedRow skat r) ∧
    (∀ r : Row, parsedRow skat r
      = (List.range' 1 (cols_to_analyze skat)).filterMap (slotParse r)) := by
  refine ⟨rfl, rfl, analyze_range_truncate t sR eR skat, ?_, fun r => rfl⟩
  intro r idx v h1 h2 hv
  unfold parsedRow
  exact List.mem_filterMap.mpr ⟨idx, List.mem_range'_1.mpr ⟨h1, by omega⟩, hv⟩

/-- Claim C4, witness: the parse of slot 2 of record 000001 contributes,
and truncating the example table after the СКАТ slots is invisible. -/
theorem claim_c4_witness :
    (34 : Int) ∈ parsedRow true exRowA ∧
    analyze_range exTableA "1" "1" true
      = analyze_range (truncTable exTableA 6) "1" "1" true :=
  ⟨(claim_c4 exTableA "1" "1" true).2.2.2.1 exRowA 2 34 (by decide) (by decide)
    (by decide),
   (claim_c4 exTableA "1" "1" true).2.2.1⟩

/-- Claim C5, counterexample: `normalize_row_number` also succeeds on
strings parseable as negative integers, which are not non-negative:
`"-5"` parses to -5 and is re-rendered as `"-00005"` instead of failing. -/
theorem claim_c5_counterexample :
    normalize_row_number "-5" = some "-00005" ∧
    pyInt "-5" = some (-5) ∧ ((-5 : Int) < 0) := by
  decide

/-- Claim C5, amended: `normalize_row_number` succeeds exactly on strings
Python `int` parses (including signed ones), returning the `%06d`
rendering of the parsed value; for non-negative values up to 999999 the
rendering is 6 characters long and re-parses to the same value, and
every nonempty all-digit string of at most 6 characters parses to such a
value. -/
theorem claim_c5_amended (s : String) :
    ((normalize_row_number s).isSome ↔ (pyInt s).isSome) ∧
    (∀ a : Int, pyInt s = some a → normalize_row_number s = some (formatInt06 a)) ∧
    (∀ a : Int, pyInt s = some a → 0 ≤ a → a ≤ 999999 →
      (formatInt06 a).length = 6 ∧ pyInt (formatInt06 a) = some a) ∧
    (s.toList ≠ [] → s.toList.length ≤ 6 →
      (∀ c ∈ s.toList, isDigitC c = true) →
      ∃ a : Int, pyInt s = some a ∧ 0 ≤ a ∧ a ≤ 999999) := by
  refine ⟨?_, ?_, ?_, ?_⟩
  · unfold normalize_row_number
    cases pyInt s <;> simp
  · intro a ha
    exact normalize_eq_some ha
  · intro a ha h0 h6
    exact ⟨formatInt06_length h0 h6, pyInt_formatInt06 a⟩
  · intro hne h6 hdig
    have hsmk : String.mk s.toList = s := rfl
    cases hcs : s.toList with
    | nil => exact absurd hcs hne
    | cons c rest =>
      have hc : isDigitC c = true := hdig c (by rw [hcs]; simp)
      have hrest : ∀ x ∈ rest, isDigitC x = true := fun x hx =>
        hdig x (by rw [hcs]; simp [hx])
      have hall : ∀ x ∈ c :: rest, isDigitC x = true := by
        intro x hx
        rcases List.mem_cons.mp hx with h | h
        · subst h; exact hc
        · exact hrest x h
      have hp := pyInt_of_digits hc hrest
      rw [show String.mk (c :: rest) = s from by rw [← hcs]; exact hsmk] at hp
      refine ⟨(pyVal (c :: rest) : Nat), hp, by positivity, ?_⟩
      have hlt : pyVal (c :: rest) < 10 ^ (c :: rest).length := pyVal_lt hall
      have hlen : (c :: rest).length ≤ 6 := by
        rw [← hcs]
        exact h6
      have hb : pyVal (c :: rest) < 10 ^ 6 :=
        lt_of_lt_of_le hlt (Nat.pow_le_pow_right (by omega) hlen)
      have hpw : (10 : Nat) ^ 6 = 1000000 := by norm_num
      rw [hpw] at hb
      exact_mod_cast Nat.le_of_lt_succ (by omega)

/-- Claim C5, witness: the amended behaviour at the digit string
`"1234"`. -/
theorem claim_c5_witness :
    normalize_row_number "1234" = some (formatInt06 1234) ∧
    (formatInt06 1234).length = 6 ∧
    pyInt (formatInt06 1234) = some 1234 ∧
    (∃ a : Int, pyInt "1234" = some a ∧ 0 ≤ a ∧ a ≤ 999999) :=
  ⟨(claim_c5_amended "1234").2.1 1234 (by decide),
   ((claim_c5_amended "1234").2.2.1 1234 (by decide) (by decide) (by decide)).1,
   ((claim_c5_amended "1234").2.2.1 1234 (by decide) (by decide) (by decide)).2,
   (claim_c5_amended "1234").2.2.2 (by decide) (by decide) (by decide)⟩

/-- Claim C6, counterexample: the formatter does not emit one line per
number or mirror pair; it emits one line per digit-difference group with
the whole group's counter on it.  The six scanned values of record
000001 all share digit difference 1 and land on a single line holding
six numbers that are not a mirror pair — the claimed per-line shape
(single number or mirror pair, ascending one-per-line emission) fails. -/
theorem claim_c6_counterexample :
    (analyze_range exTableB "1" "1" false).snd = none ∧
    format_difference_lines
        ((analyze_range exTableB "1" "1" false).fst.getD initResults)
      = [(1, [(21, 1), (23, 1), (45, 1), (67, 1), (89, 1), (10, 1)])] ∧
    ((format_difference_lines
        ((analyze_range exTableB "1" "1" false).fst.getD initResults)).all
      specLineOkB) = false := by
  decide

/-- Claim C6, amended: what does hold of the formatter is that each
number is listed at most once — the emitted stamp keys are distinct, the
number keys within each line are distinct, and a number appears as a key
in at most one line; there is no mirror pairing and no per-number
line splitting. -/
theorem claim_c6_amended (skat : Bool) (rows : List Row) :
    ((format_difference_lines (scanRows skat rows)).map Prod.fst).Nodup ∧
    (∀ p ∈ format_difference_lines (scanRows skat rows),
      (p.2.map Prod.fst).Nodup) ∧
    (∀ p ∈ format_difference_lines (scanRows skat rows),
      ∀ q ∈ format_difference_lines (scanRows skat rows),
        ∀ v : Int, v ∈ p.2.map Prod.fst → v ∈ q.2.map Prod.fst → p = q) := by
  have hWF := scanRows_WF skat rows
  have hkeys : (format_difference_lines (scanRows skat rows)).map Prod.fst
      = sortNat ((scanRows skat rows).difference_groups.map Prod.fst) := by
    unfold format_difference_lines
    rw [List.map_map]
    have hid : (Prod.fst ∘ fun d =>
        (d, counterList (lookupGroup (scanRows skat rows).difference_groups d)))
        = id := rfl
    rw [hid, List.map_id]
  refine ⟨?_, ?_, ?_⟩
  · rw [hkeys]
    exact nodup_sortNat _ hWF.1
  · intro p hp
    unfold format_difference_lines at hp
    rcases List.mem_map.mp hp with ⟨d, hd, rfl⟩
    exact nodup_keys_counterList _
  · intro p hp q hq v hvp hvq
    unfold format_difference_lines at hp hq
    rcases List.mem_map.mp hp with ⟨dp, hdp, rfl⟩
    rcases List.mem_map.mp hq with ⟨dq, hdq, rfl⟩
    have h1 : calculate_digit_difference v = some dp :=
      diff_of_mem_lookupGroup hWF.2
        (mem_keys_counterList _ v (by simpa using hvp))
    have h2 : calculate_digit_difference v = some dq :=
      diff_of_mem_lookupGroup hWF.2
        (mem_keys_counterList _ v (by simpa using hvq))
    have : dp = dq := by
      rw [h1] at h2
      exact Option.some.inj h2
    rw [this]

/-- Claim C6, witness: the amended guarantees at the example table. -/
theorem claim_c6_witness :
    ((format_difference_lines (scanRows false [exRowB])).map Prod.fst).Nodup ∧
    (((1 : Nat), [((21 : Int), (1 : Nat)), (23, 1), (45, 1), (67, 1), (89, 1),
      (10, 1)]).2.map Prod.fst).Nodup :=
  ⟨(claim_c6_amended false [exRowB]).1,
   (claim_c6_amended false [exRowB]).2.1 _ (by decide)⟩

/-- Claim C7: a table with fewer than 7 columns yields exactly the one
structural error with no duplicate or slot check run; with at least 7
columns no structural error appears and the output is exactly the
duplicate errors followed by all slot-value errors, collected together. -/
theorem claim_c7 (t : Table) :
    (t.ncols < 7 → validate_data t = [VError.structural]) ∧
    (7 ≤ t.ncols →
      validate_data t = dupErrors t ++ slotValueErrors t ∧
      VError.structural ∉ validate_data t) := by
  constructor
  · intro h
    rw [validate_data, if_pos h]
  · intro h
    have heq : validate_data t = dupErrors t ++ slotValueErrors t := by
      rw [validate_data, if_neg (by omega)]
    refine ⟨heq, ?_⟩
    rw [heq]
    intro hmem
    rcases List.mem_append.mp hmem with hm | hm
    · unfold dupErrors at hm
      dsimp only at hm
      split at hm <;> simp at hm
    · unfold slotValueErrors at hm
      rcases List.mem_flatMap.mp hm with ⟨r, hr, hmr⟩
      unfold rowErrors at hmr
      rcases List.mem_flatMap.mp hmr with ⟨pos, hpos, hme⟩
      split at hme
      · unfold slotCellErrors at hme
        dsimp only at hme
        split at hme
        · simp at hme
        · split at hme
          · split at hme <;> simp at hme
          · simp at hme
      · simp at hme

/-- Claim C7, witness: the structural short-circuit at a 3-column table
and the collected duplicate and slot errors at a 7-column table. -/
theorem claim_c7_witness :
    validate_data exTableE = [VError.structural] ∧
    validate_data exTableF = dupErrors exTableF ++ slotValueErrors exTableF ∧
    VError.structural ∉ validate_data exTableF :=
  ⟨(claim_c7 exTableE).1 (by decide),
   ((claim_c7 exTableF).2 (by decide)).1,
   ((claim_c7 exTableF).2 (by decide)).2⟩

/-- Claim C8: both the range analysis and the single-record lookup always
return exactly one of a result or an error — a present result comes with
no error and every failure carries no result. -/
theorem claim_c8 (t : Table) (sR eR rN : String) (skat : Bool) :
    ((∃ r, analyze_range t sR eR skat = (some r, none)) ∨
      (∃ e, analyze_range t sR eR skat = (none, some e))) ∧
    ((∃ r, get_single_row t rN = (some r, none)) ∨
      (∃ e, get_single_row t rN = (none, some e))) := by
  constructor
  · unfold analyze_range
    cases normalize_row_number sR with
    | none => exact Or.inr ⟨_, rfl⟩
    | some sN =>
      cases normalize_row_number eR with
      | none => exact Or.inr ⟨_, rfl⟩
      | some eN =>
        dsimp only
        split
        · exact Or.inr ⟨_, rfl⟩
        · split
          · unfold afterIntegrity
            cases hl : rangeFilter t sN eN with
            | nil => exact Or.inr ⟨_, rfl⟩
            | cons r rs => exact Or.inl ⟨_, rfl⟩
          · exact Or.inr ⟨_, rfl⟩
  · unfold get_single_row
    cases normalize_row_number rN with
    | none => exact Or.inr ⟨_, rfl⟩
    | some nN =>
      dsimp only
      cases hl : t.rows.filter (fun r => cellAt r 0 = nN) with
      | nil => exact Or.inr ⟨_, rfl⟩
      | cons r rs => exact Or.inl ⟨_, rfl⟩

/-- Claim C9: range completeness compares the zero-padded expected
identity strings verbatim against the stored identity column — a value
whose padded form is absent is reported missing whenever a normalized
range covers it, and any analysis that returns a result therefore had
every padded identity of its range stored verbatim. -/
theorem claim_c9 (t : Table) (sR eR : String) (skat : Bool) (a b v : Int)
    (ha : pyInt sR = some a) (hb : pyInt eR = some b)
    (hav : a ≤ v) (hvb : v ≤ b) (hnp : formatInt06 v ∉ col0 t) :
    formatInt06 v ∈ check_range_integrity t a b ∧
    analyze_range t sR eR skat
      = (none, some (AnalyzeError.incomplete (check_range_integrity t a b))) ∧
    (∀ (t2 : Table) (r : AnalysisResults) (e : Option AnalyzeError),
      analyze_range t2 sR eR skat = (some r, e) →
      ∀ i : Int, a ≤ i → i ≤ b → formatInt06 i ∈ col0 t2) := by
  have hmem : formatInt06 v ∈ check_range_integrity t a b := by
    rw [check_range_integrity_eq_filter]
    exact List.mem_filter.mpr
      ⟨List.mem_map_of_mem _ (mem_intRange.mpr ⟨hav, hvb⟩), by simpa using hnp⟩
  have hne : check_range_integrity t a b ≠ [] := by
    intro h0
    rw [h0] at hmem
    simp at hmem
  refine ⟨hmem, ?_, ?_⟩
  · rw [analyze_range_normalized t sR eR skat ha hb (by omega), if_neg hne]
  · intro t2 r e heq i h1 h2
    by_contra hni
    have hmem2 : formatInt06 i ∈ check_range_integrity t2 a b := by
      rw [check_range_integrity_eq_filter]
      exact List.mem_filter.mpr
        ⟨List.mem_map_of_mem _ (mem_intRange.mpr ⟨h1, h2⟩), by simpa using hni⟩
    have hne2 : check_range_integrity t2 a b ≠ [] := by
      intro h0
      rw [h0] at hmem2
      simp at hmem2
    rw [analyze_range_normalized t2 sR eR skat ha hb (by omega),
      if_neg hne2] at heq
    simp at heq

/-- Claim C9, witness: a record stored as `"1234"` is reported missing as
`"001234"` when analyzing the range 1234..1234. -/
theorem claim_c9_witness :
    formatInt06 1234 ∈ check_range_integrity exTableD 1234 1234 ∧
    analyze_range exTableD "1234" "1234" false
      = (none, some (AnalyzeError.incomplete
          (check_range_integrity exTableD 1234 1234))) :=
  ⟨(claim_c9 exTableD "1234" "1234" false 1234 1234 1234 (by decide) (by decide)
      (by decide) (by decide) (by decide)).1,
   (claim_c9 exTableD "1234" "1234" false 1234 1234 1234 (by decide) (by decide)
      (by decide) (by decide) (by decide)).2.1⟩

/-- Claim C10: on a structurally valid rectangular table (at least 7
columns, every row as long as the column count, as pandas guarantees)
the missing-slot branch of the validator is unreachable: no
missing-value-at-position error is ever emitted. -/
theorem claim_c10 (t : Table) (hcols : 7 ≤ t.ncols)
    (hrect : ∀ r ∈ t.rows, r.length = t.ncols) :
    ∀ (id : String) (pos : Nat), VError.missingSlot id pos ∉ validate_data t := by
  intro id pos hmem
  rw [validate_data, if_neg (by omega)] at hmem
  rcases List.mem_append.mp hmem with hm | hm
  · unfold dupErrors at hm
    dsimp only at hm
    split at hm <;> simp at hm
  · unfold slotValueErrors at hm
    rcases List.mem_flatMap.mp hm with ⟨r, hr, hmr⟩
    unfold rowErrors at hmr
    rcases List.mem_flatMap.mp hmr with ⟨p, hp, hme⟩
    have hp7 : p < 7 := by
      have := List.mem_range'_1.mp hp
      omega
    have hlen : p < r.length := by
      rw [hrect r hr]
      omega
    rw [if_pos hlen] at hme
    unfold slotCellErrors at hme
    dsimp only at hme
    split at hme
    · simp at hme
    · split at hme
      · split at hme <;> simp at hme
      · simp at hme

/-- Claim C10, witness: no missing-slot error on the rectangular
7-column example table. -/
theorem claim_c10_witness :
    VError.missingSlot "000001" 3 ∉ validate_data exTableA :=
  claim_c10 exTableA (by decide) (by decide) "000001" 3

end Locks